import Mathlib

/-!
Verification of the PayMo fraud-alert relationship-graph engine.

The development shallowly embeds the two C++ source variants
(`fraud-alert-bfs.cpp`, using a plain breadth-first search and a
hash-keyed friendship index, and `fraud-alert.cpp`, using a
unit-weight Dijkstra search and a sorted pair set) and proves the
specified properties of the graph core: registry resolution, idempotent
edge insertion, the direct-connection index, the degree-of-separation
search, and the fixed-threshold fraud classifier.
-/

namespace Paymo

/-- The `INT_MAX` sentinel (`std::numeric_limits<int>::max()`), returned by
`friendship_degree` for unreachable pairs. -/
def intMax : Int := 2147483647

/-- An undirected graph in the style of
`boost::adjacency_list<vecS, vecS, undirectedS>`: vertices are the dense
indices `0 .. n-1` and `edges` lists the inserted edges in order. -/
structure Graph where
  n : Nat
  edges : List (Nat × Nat)

/-- `boost::add_vertex`: allocates the next dense vertex index. -/
def addVertex (g : Graph) : Graph := ⟨g.n + 1, g.edges⟩

/-- `boost::add_edge(u, v, g)` on an undirected graph: records the edge. -/
def addEdge (g : Graph) (u v : Nat) : Graph := ⟨g.n, g.edges ++ [(u, v)]⟩

/-- `boost::edge(u, v, g).second` on an undirected graph: some stored edge
joins `u` and `v` (in either orientation). -/
def edgeb (g : Graph) (u v : Nat) : Bool :=
  g.edges.any (fun e => (e.1 == u && e.2 == v) || (e.1 == v && e.2 == u))

/-- Propositional adjacency in the undirected payment graph. -/
def adjacent (g : Graph) (u v : Nat) : Prop :=
  (u, v) ∈ g.edges ∨ (v, u) ∈ g.edges

/-- Well-formedness: every stored edge joins allocated vertex indices.
Every state reachable through the source operations satisfies this. -/
def WF (g : Graph) : Prop := ∀ e ∈ g.edges, e.1 < g.n ∧ e.2 < g.n

/-- The pairing function of `fraud-alert-bfs.cpp`: maps two integers to a
single key for the friendship map (`perfect_hash` in the source). -/
def perfect_hash (a b : Int) : Int :=
  let A : Int := if 0 ≤ a then 2 * a else -2 * a - 1
  let B : Int := if 0 ≤ b then 2 * b else -2 * b - 1
  let C : Int := (if B ≤ A then A * A + A + B else A + B * B) / 2
  if (a < 0 ∧ b < 0) ∨ (0 ≤ a ∧ 0 ≤ b) then C else -C - 1

/-- Canonical ordering of a node pair: the smaller node index first
(`create_connection` in both sources). -/
def create_connection (node1 node2 : Nat) : Nat × Nat :=
  if node1 < node2 then (node1, node2) else (node2, node1)

/-- Association-list lookup, modelling `std::map::find`. -/
def alookup {α β : Type} [DecidableEq α] : List (α × β) → α → Option β
  | [], _ => none
  | p :: rest, k => if p.1 = k then some p.2 else alookup rest k

/-- `std::map::operator[] = value`: replace the binding if the key is
present, otherwise insert it. -/
def mapSet (m : List (Int × Bool)) (k : Int) (b : Bool) : List (Int × Bool) :=
  match m with
  | [] => [(k, b)]
  | p :: rest => if p.1 = k then (k, b) :: rest else p :: mapSet rest k b

/-- Reading `std::map::operator[]` (as in the live-mode check
`friends[perfect_hash(...)]` of `fraud-alert-bfs.cpp`): returns the stored
value, or value-initializes the key to `false` and returns `false`. -/
def mapGetInsert (m : List (Int × Bool)) (k : Int) : Bool × List (Int × Bool) :=
  match alookup m k with
  | some b => (b, m)
  | none => (false, m ++ [(k, false)])

/-- The direct-connection answer of the friendship index of
`fraud-alert-bfs.cpp`: the value stored under the pair's key, with absent
keys read as `false`. -/
def is_connectedf (friends : List (Int × Bool)) (p : Nat × Nat) : Bool :=
  (alookup friends (perfect_hash (p.1 : Int) (p.2 : Int))).getD false

/-- Global state of the BFS variant (`fraud-alert-bfs.cpp`): the user/node
registry maps, the payment graph, and the `friends` map keyed by
`perfect_hash`. -/
structure BfsState where
  users : List (Int × Nat)
  nodes : List (Nat × Int)
  g : Graph
  friends : List (Int × Bool)

/-- Global state of the Dijkstra variant (`fraud-alert.cpp`): registry maps,
the payment graph, and the `connections` set of canonical pairs. -/
structure DijState where
  users : List (Int × Nat)
  nodes : List (Nat × Int)
  g : Graph
  connections : List (Nat × Nat)

/-- Empty start state of the BFS variant. -/
def initBfs : BfsState := ⟨[], [], ⟨0, []⟩, []⟩

/-- Empty start state of the Dijkstra variant. -/
def initDij : DijState := ⟨[], [], ⟨0, []⟩, []⟩

/-- `add_user` of `fraud-alert-bfs.cpp`: resolve a user id to its node,
allocating a fresh vertex and recording both mappings on first sight. -/
def add_user_bfs (uid : Int) (st : BfsState) : Nat × BfsState :=
  match alookup st.users uid with
  | some node => (node, st)
  | none =>
    let node := st.g.n
    (node, ⟨st.users ++ [(uid, node)], st.nodes ++ [(node, uid)],
            addVertex st.g, st.friends⟩)

/-- `add_user` of `fraud-alert.cpp` (same logic over `DijState`). -/
def add_user_dij (uid : Int) (st : DijState) : Nat × DijState :=
  match alookup st.users uid with
  | some node => (node, st)
  | none =>
    let node := st.g.n
    (node, ⟨st.users ++ [(uid, node)], st.nodes ++ [(node, uid)],
            addVertex st.g, st.connections⟩)

/-- `update_network` of `fraud-alert-bfs.cpp`: if no edge joins the pair yet,
add the edge and set the friendship-map entry for its hash key to `true`. -/
def update_network_bfs (connection : Nat × Nat) (st : BfsState) : BfsState :=
  if edgeb st.g connection.1 connection.2 then st
  else ⟨st.users, st.nodes, addEdge st.g connection.1 connection.2,
        mapSet st.friends (perfect_hash (connection.1 : Int) (connection.2 : Int)) true⟩

/-- `update_network` of `fraud-alert.cpp`: if no edge joins the pair yet,
add the (unit-weight) edge and insert the pair into the `connections` set. -/
def update_network_dij (connection : Nat × Nat) (st : DijState) : DijState :=
  if edgeb st.g connection.1 connection.2 then st
  else ⟨st.users, st.nodes, addEdge st.g connection.1 connection.2,
        if connection ∈ st.connections then st.connections
        else st.connections ++ [connection]⟩

/-- Resolving both users of one payment record, in source order. -/
def resolve2_bfs (st : BfsState) (uid1 uid2 : Int) : BfsState × Nat × Nat :=
  let r1 := add_user_bfs uid1 st
  let r2 := add_user_bfs uid2 r1.2
  (r2.2, r1.1, r2.1)

/-- Resolving both users of one payment record, in source order. -/
def resolve2_dij (st : DijState) (uid1 uid2 : Int) : DijState × Nat × Nat :=
  let r1 := add_user_dij uid1 st
  let r2 := add_user_dij uid2 r1.2
  (r2.2, r1.1, r2.1)

/-- One iteration of `build_paymo_network` of `fraud-alert-bfs.cpp`. -/
def processBatch_bfs (st : BfsState) (p : Int × Int) : BfsState :=
  let r := resolve2_bfs st p.1 p.2
  update_network_bfs (create_connection r.2.1 r.2.2) r.1

/-- One iteration of `build_paymo_network` of `fraud-alert.cpp`. -/
def processBatch_dij (st : DijState) (p : Int × Int) : DijState :=
  let r := resolve2_dij st p.1 p.2
  update_network_dij (create_connection r.2.1 r.2.2) r.1

/-- `build_paymo_network` of `fraud-alert-bfs.cpp`: bulk-load a batch of
historic payments (only the id pair of each record is relevant). -/
def build_paymo_network_bfs (payments : List (Int × Int)) (st : BfsState) : BfsState :=
  payments.foldl processBatch_bfs st

/-- `build_paymo_network` of `fraud-alert.cpp`. -/
def build_paymo_network_dij (payments : List (Int × Int)) (st : DijState) : DijState :=
  payments.foldl processBatch_dij st

/-- The trust verdicts written by the main loops: a tier prints `Trusted`
exactly when the degree does not exceed its threshold (1, 2, 4). `true`
stands for `Trusted`, `false` for `Unverified`. -/
def classify (friendship : Int) : Bool × Bool × Bool :=
  (if friendship > 1 then false else true,
   if friendship > 2 then false else true,
   if friendship > 4 then false else true)

/-- One expansion step of in-range vertices adjacent to the current set. -/
def expand (g : Graph) (S : List Nat) : List Nat :=
  S ++ (List.range g.n).filter (fun v => decide (v ∉ S ∧ ∃ u ∈ S, edgeb g u v = true))

/-- All vertices within graph distance `k` of `s` (plus `s` itself). -/
def ball (g : Graph) (s : Nat) : Nat → List Nat
  | 0 => [s]
  | k + 1 => expand g (ball g s k)

/-- Layer-by-layer breadth-first search from the current frontier, as run by
`boost::breadth_first_search` with the distance-recording visitor of
`fraud-alert-bfs.cpp`: the moment the target appears among the newly
discovered vertices the search stops and yields its distance; when the
component is exhausted the target was never discovered. -/
def bfsLoop (g : Graph) (t : Nat) : Nat → List Nat → List Nat → Nat → Option Nat
  | 0, _, _, _ => none
  | fuel + 1, visited, frontier, d =>
    let nxt := (List.range g.n).filter
      (fun v => decide (v ∉ visited ∧ ∃ u ∈ frontier, edgeb g u v = true))
    if t ∈ nxt then some (d + 1)
    else if nxt = [] then none
    else bfsLoop g t fuel (visited ++ nxt) nxt (d + 1)

/-- `friendship_degree` of `fraud-alert-bfs.cpp`: the distance vector is
initialized to `INT_MAX` with `d[start] = 0`, the visitor records
`d[v] = d[u] + 1` along tree edges and aborts when the target is
discovered, and `d[stop_node]` is returned.  When target equals start its
entry is the initial `0` (a start vertex is never a tree-edge target). -/
def friendship_degree_bfs (connection : Nat × Nat) (g : Graph) : Int :=
  if connection.2 = connection.1 then 0
  else
    match bfsLoop g connection.2 g.n [connection.1] [connection.1] 0 with
    | some d => (d : Int)
    | none => intMax

/-- Edge relaxation with the uniform weight 1 used by `fraud-alert.cpp`. -/
def relax (g : Graph) (u du : Nat) (dist : Nat → Option Nat) : Nat → Option Nat :=
  fun v =>
    if edgeb g u v then
      match dist v with
      | none => some (du + 1)
      | some dv => some (min dv (du + 1))
    else dist v

/-- Selection of a not-yet-finalized vertex with minimal tentative distance
(the priority-queue pop of `boost::dijkstra_shortest_paths`). -/
def candMinAux (finalized : List Nat) (dist : Nat → Option Nat) :
    List Nat → Option (Nat × Nat)
  | [] => none
  | v :: l =>
    let rest := candMinAux finalized dist l
    if v ∈ finalized then rest
    else
      match dist v with
      | none => rest
      | some dv =>
        match rest with
        | none => some (v, dv)
        | some (u, du) => if dv ≤ du then some (v, dv) else some (u, du)

/-- Minimal unfinalized vertex over all allocated vertex indices. -/
def candMin (g : Graph) (finalized : List Nat) (dist : Nat → Option Nat) :
    Option (Nat × Nat) :=
  candMinAux finalized dist (List.range g.n)

/-- The main loop of `boost::dijkstra_shortest_paths` with unit weights and
the `early_stop_visitor` of `fraud-alert.cpp`: repeatedly finalize a
minimal-distance vertex, relaxing its incident edges; `finish_vertex`
throws the moment the target vertex is finalized, and the caller then reads
off the target's (by then final) distance entry. -/
def dijkstraLoop (g : Graph) (t : Nat) : Nat → List Nat → (Nat → Option Nat) → Option Nat
  | 0, _, _ => none
  | fuel + 1, finalized, dist =>
    match candMin g finalized dist with
    | none => none
    | some (u, du) =>
      if u = t then some du
      else dijkstraLoop g t fuel (finalized ++ [u]) (relax g u du dist)

/-- `friendship_degree` of `fraud-alert.cpp` (as called, with
`use_early_stop = true`): run unit-weight Dijkstra from the start node and
return `d[stop_node]`, which is `INT_MAX` when the target was never
finalized. -/
def friendship_degree_dij (connection : Nat × Nat) (g : Graph) : Int :=
  match dijkstraLoop g connection.2 (g.n + 1) []
      (fun v => if v = connection.1 then some 0 else none) with
  | some d => (d : Int)
  | none => intMax

/-- One iteration of the live-mode loop of `fraud-alert-bfs.cpp` (STEP 4):
resolve both users, read the friendship map through `operator[]` (which
inserts a default-`false` entry for an unseen key), and either short-cut to
degree 1 or search the pre-insertion graph and then insert the edge. -/
def processPayment_bfs (st : BfsState) (uid1 uid2 : Int) : BfsState × Int :=
  let r := resolve2_bfs st uid1 uid2
  let connection := create_connection r.2.1 r.2.2
  let look := mapGetInsert r.1.friends (perfect_hash (connection.1 : Int) (connection.2 : Int))
  let st2 : BfsState := ⟨r.1.users, r.1.nodes, r.1.g, look.2⟩
  if look.1 then (st2, 1)
  else (update_network_bfs connection st2, friendship_degree_bfs connection st2.g)

/-- One iteration of the live-mode loop of `fraud-alert.cpp` (STEP 4):
resolve both users, test the `connections` set, and either short-cut to
degree 1 or search the pre-insertion graph and then insert the edge. -/
def processPayment_dij (st : DijState) (uid1 uid2 : Int) : DijState × Int :=
  let r := resolve2_dij st uid1 uid2
  let connection := create_connection r.2.1 r.2.2
  if connection ∈ r.1.connections then (r.1, 1)
  else (update_network_dij connection r.1, friendship_degree_dij connection r.1.g)

/-- A walk of length `k` (counted in edges) between two vertices. -/
inductive IsWalk (g : Graph) : Nat → Nat → Nat → Prop
  | nil (u : Nat) : IsWalk g u u 0
  | cons {u v w k : Nat} : adjacent g u v → IsWalk g v w k → IsWalk g u w (k + 1)

/-- `d` is the exact shortest-path distance between `s` and `t`:
some walk attains it and no walk is shorter. -/
def shortestDist (g : Graph) (s t d : Nat) : Prop :=
  IsWalk g s t d ∧ ∀ j, IsWalk g s t j → d ≤ j

/-- No walk of any length joins `s` to `t`. -/
def noWalk (g : Graph) (s t : Nat) : Prop := ∀ j, ¬ IsWalk g s t j

/-- `m` is the first ball index containing `t` (the BFS layer of `t`). -/
def firstBall (g : Graph) (s t m : Nat) : Prop :=
  t ∈ ball g s m ∧ ∀ j < m, t ∉ ball g s j

/-- The state of the BFS variant after resolving a live payment's two users
but before any further effect of the iteration. -/
def preResolved_bfs (st : BfsState) (uid1 uid2 : Int) : BfsState :=
  (resolve2_bfs st uid1 uid2).1

/-- The canonical pair of the two resolved nodes of a live payment. -/
def liveConn_bfs (st : BfsState) (uid1 uid2 : Int) : Nat × Nat :=
  create_connection (resolve2_bfs st uid1 uid2).2.1 (resolve2_bfs st uid1 uid2).2.2

/-- The state of the Dijkstra variant after resolving a live payment's users. -/
def preResolved_dij (st : DijState) (uid1 uid2 : Int) : DijState :=
  (resolve2_dij st uid1 uid2).1

/-- The canonical pair of the two resolved nodes of a live payment. -/
def liveConn_dij (st : DijState) (uid1 uid2 : Int) : Nat × Nat :=
  create_connection (resolve2_dij st uid1 uid2).2.1 (resolve2_dij st uid1 uid2).2.2

/-- Specification of `candMinAux`: the result is an unfinalized vertex of the
scanned list carrying a minimal tentative distance, and `none` exactly when
no scanned unfinalized vertex has a tentative distance. -/
def IsMinCand (finalized : List Nat) (dist : Nat → Option Nat) (l : List Nat)
    (r : Option (Nat × Nat)) : Prop :=
  match r with
  | none => ∀ v ∈ l, v ∉ finalized → dist v = none
  | some (u, du) =>
      u ∈ l ∧ u ∉ finalized ∧ dist u = some du ∧
      ∀ v ∈ l, v ∉ finalized → ∀ dv, dist v = some dv → du ≤ dv

/-- Loop invariant of unit-weight Dijkstra, phrased in BFS layers: the
finalized set is the ball of radius `k - 1` together with a part `F` of the
`k`-th layer; unfinalized `k`-layer vertices carry tentative distance `k`;
vertices outside the ball carry `k + 1` when some finalized `k`-layer vertex
reaches them and are untouched otherwise. -/
def DijInv (g : Graph) (s t : Nat) (k : Nat) (F finalized : List Nat)
    (dist : Nat → Option Nat) : Prop :=
  (∀ v, v ∈ finalized ↔ ((1 ≤ k ∧ v ∈ ball g s (k - 1)) ∨ v ∈ F)) ∧
  (∀ v ∈ F, v ∈ ball g s k ∧ (1 ≤ k → v ∉ ball g s (k - 1))) ∧
  (∀ v, v ∈ ball g s k → (1 ≤ k → v ∉ ball g s (k - 1)) → v ∉ F → dist v = some k) ∧
  (∀ v, v ∉ ball g s k → (∃ u ∈ F, edgeb g u v = true) → dist v = some (k + 1)) ∧
  (∀ v, v ∉ ball g s k → ¬ (∃ u ∈ F, edgeb g u v = true) → dist v = none) ∧
  finalized.Nodup ∧ (∀ v ∈ finalized, v < g.n) ∧ t ∉ finalized

lemma alookup_append {α β : Type} [DecidableEq α] (l1 l2 : List (α × β)) (k : α) :
    alookup (l1 ++ l2) k =
      match alookup l1 k with
      | some v => some v
      | none => alookup l2 k := by
  induction l1 with
  | nil => simp [alookup]
  | cons p rest ih =>
    by_cases h : p.1 = k
    · simp [alookup, h]
    · simp [alookup, h, ih]

lemma alookup_mapSet_self (m : List (Int × Bool)) (k : Int) (b : Bool) :
    alookup (mapSet m k b) k = some b := by
  induction m with
  | nil => simp [mapSet, alookup]
  | cons p rest ih =>
    by_cases h : p.1 = k
    · simp [mapSet, h, alookup]
    · simp [mapSet, h, alookup, ih]

lemma alookup_mapSet_ne (m : List (Int × Bool)) (k k' : Int) (b : Bool)
    (h : k' ≠ k) : alookup (mapSet m k b) k' = alookup m k' := by
  have h1 : ¬ (k = k') := fun hh => h hh.symm
  induction m with
  | nil =>
    simp only [mapSet, alookup]
    rw [if_neg h1]
  | cons p rest ih =>
    by_cases hp : p.1 = k
    · have h2 : ¬ (p.1 = k') := by rw [hp]; exact h1
      simp only [mapSet, if_pos hp, alookup]
      rw [if_neg h1, if_neg h2]
    · simp only [mapSet, if_neg hp, alookup, ih]

lemma mapGetInsert_fst (m : List (Int × Bool)) (k : Int) :
    (mapGetInsert m k).1 = (alookup m k).getD false := by
  unfold mapGetInsert
  cases h : alookup m k <;> simp [h]

lemma edgeb_iff (g : Graph) (u v : Nat) : edgeb g u v = true ↔ adjacent g u v := by
  simp only [edgeb, adjacent, List.any_eq_true, Bool.or_eq_true, Bool.and_eq_true,
    beq_iff_eq]
  constructor
  · rintro ⟨e, he, ⟨h1, h2⟩ | ⟨h1, h2⟩⟩
    · exact Or.inl (by rwa [show e = (u, v) from Prod.ext_iff.2 ⟨h1, h2⟩] at he)
    · exact Or.inr (by rwa [show e = (v, u) from Prod.ext_iff.2 ⟨h1, h2⟩] at he)
  · rintro (h | h)
    · exact ⟨(u, v), h, Or.inl ⟨rfl, rfl⟩⟩
    · exact ⟨(v, u), h, Or.inr ⟨rfl, rfl⟩⟩

lemma edgeb_comm (g : Graph) (u v : Nat) : edgeb g u v = edgeb g v u := by
  rw [Bool.eq_iff_iff, edgeb_iff, edgeb_iff]
  unfold adjacent
  tauto

lemma edgeb_addEdge_self (g : Graph) (u v : Nat) :
    edgeb (addEdge g u v) u v = true := by
  simp [edgeb, addEdge, List.any_append]

lemma perfect_hash_coe (a b : Nat) :
    perfect_hash (a : Int) (b : Int) =
      ((if b ≤ a then 2 * a * a + a + b else a + 2 * b * b : Nat) : Int) := by
  have ha : (0 : Int) ≤ (a : Int) := Int.natCast_nonneg a
  have hb : (0 : Int) ≤ (b : Int) := Int.natCast_nonneg b
  have hcond : ((a : Int) < 0 ∧ (b : Int) < 0) ∨
      ((0 : Int) ≤ (a : Int) ∧ (0 : Int) ≤ (b : Int)) := Or.inr ⟨ha, hb⟩
  rw [perfect_hash]
  simp only [if_pos ha, if_pos hb, if_pos hcond]
  by_cases hba : b ≤ a
  · have h2 : (2 * (b : Int) ≤ 2 * (a : Int)) := by
      have : (b : Int) ≤ (a : Int) := by exact_mod_cast hba
      omega
    rw [if_pos h2, if_pos hba]
    rw [show 2 * (a : Int) * (2 * a) + 2 * a + 2 * b = 2 * (2 * a * a + a + b) by ring]
    rw [Int.mul_ediv_cancel_left _ (by norm_num)]
    push_cast
    ring
  · have h2 : ¬ (2 * (b : Int) ≤ 2 * (a : Int)) := by
      have : ¬ ((b : Int) ≤ (a : Int)) := by exact_mod_cast hba
      omega
    rw [if_neg h2, if_neg hba]
    rw [show 2 * (a : Int) + 2 * b * (2 * b) = 2 * (a + 2 * b * b) by ring]
    rw [Int.mul_ediv_cancel_left _ (by norm_num)]
    push_cast
    ring

lemma szudzik_inj (a b c d : Nat)
    (h : (if b ≤ a then 2 * a * a + a + b else a + 2 * b * b) =
         (if d ≤ c then 2 * c * c + c + d else c + 2 * d * d)) :
    a = c ∧ b = d := by
  by_cases h1 : b ≤ a <;> by_cases h2 : d ≤ c <;> simp only [h1, h2, if_pos, if_neg, if_true, if_false] at h
  · rcases Nat.lt_trichotomy a c with hac | hac | hac
    · exfalso
      have hm : (a + 1) * (a + 1) ≤ c * c := Nat.mul_le_mul hac hac
      nlinarith [hm, h1, h2]
    · subst hac
      exact ⟨rfl, Nat.add_left_cancel h⟩
    · exfalso
      have hm : (c + 1) * (c + 1) ≤ a * a := Nat.mul_le_mul hac hac
      nlinarith [hm, h1, h2]
  · exfalso
    push_neg at h2
    rcases le_or_lt d a with hda | hda
    · have hm : d * d ≤ a * a := Nat.mul_le_mul hda hda
      nlinarith [hm, h1, h2]
    · have hm : (a + 1) * (a + 1) ≤ d * d := Nat.mul_le_mul hda hda
      nlinarith [hm, h1, h2]
  · exfalso
    push_neg at h1
    rcases le_or_lt b c with hbc | hbc
    · have hm : b * b ≤ c * c := Nat.mul_le_mul hbc hbc
      nlinarith [hm, h1, h2]
    · have hm : (c + 1) * (c + 1) ≤ b * b := Nat.mul_le_mul hbc hbc
      nlinarith [hm, h1, h2]
  · push_neg at h1 h2
    rcases Nat.lt_trichotomy b d with hbd | hbd | hbd
    · exfalso
      have hm : (b + 1) * (b + 1) ≤ d * d := Nat.mul_le_mul hbd hbd
      nlinarith [hm, h1, h2]
    · subst hbd
      exact ⟨Nat.add_right_cancel h, rfl⟩
    · exfalso
      have hm : (d + 1) * (d + 1) ≤ b * b := Nat.mul_le_mul hbd hbd
      nlinarith [hm, h1, h2]

lemma perfect_hash_nat_inj (a b c d : Nat)
    (h : perfect_hash (a : Int) (b : Int) = perfect_hash (c : Int) (d : Int)) :
    a = c ∧ b = d := by
  rw [perfect_hash_coe, perfect_hash_coe] at h
  exact szudzik_inj a b c d (by exact_mod_cast h)

lemma update_network_bfs_idem (c : Nat × Nat) (st : BfsState) :
    update_network_bfs c (update_network_bfs c st) = update_network_bfs c st := by
  by_cases h : edgeb st.g c.1 c.2
  · simp [update_network_bfs, h]
  · have h2 : edgeb (update_network_bfs c st).g c.1 c.2 = true := by
      simp [update_network_bfs, h, edgeb_addEdge_self]
    conv_lhs => rw [update_network_bfs]
    rw [if_pos h2]

lemma update_network_dij_idem (c : Nat × Nat) (st : DijState) :
    update_network_dij c (update_network_dij c st) = update_network_dij c st := by
  by_cases h : edgeb st.g c.1 c.2
  · simp [update_network_dij, h]
  · have h2 : edgeb (update_network_dij c st).g c.1 c.2 = true := by
      simp [update_network_dij, h, edgeb_addEdge_self]
    conv_lhs => rw [update_network_dij]
    rw [if_pos h2]

lemma processPayment_bfs_not_connected (st : BfsState) (uid1 uid2 : Int)
    (h : is_connectedf (preResolved_bfs st uid1 uid2).friends
      (liveConn_bfs st uid1 uid2) = false) :
    processPayment_bfs st uid1 uid2 =
      (update_network_bfs (liveConn_bfs st uid1 uid2)
        ⟨(preResolved_bfs st uid1 uid2).users, (preResolved_bfs st uid1 uid2).nodes,
         (preResolved_bfs st uid1 uid2).g,
         (mapGetInsert (preResolved_bfs st uid1 uid2).friends
           (perfect_hash ((liveConn_bfs st uid1 uid2).1 : Int)
             ((liveConn_bfs st uid1 uid2).2 : Int))).2⟩,
       friendship_degree_bfs (liveConn_bfs st uid1 uid2)
         (preResolved_bfs st uid1 uid2).g) := by
  unfold preResolved_bfs liveConn_bfs at *
  have hb : (mapGetInsert (resolve2_bfs st uid1 uid2).1.friends
      (perfect_hash ((create_connection (resolve2_bfs st uid1 uid2).2.1
        (resolve2_bfs st uid1 uid2).2.2).1 : Int)
        ((create_connection (resolve2_bfs st uid1 uid2).2.1
          (resolve2_bfs st uid1 uid2).2.2).2 : Int))).1 = false := by
    rw [mapGetInsert_fst]; exact h
  simp only [processPayment_bfs]
  rw [if_neg (by simp [hb])]

lemma processPayment_dij_not_connected (st : DijState) (uid1 uid2 : Int)
    (h : liveConn_dij st uid1 uid2 ∉ (preResolved_dij st uid1 uid2).connections) :
    processPayment_dij st uid1 uid2 =
      (update_network_dij (liveConn_dij st uid1 uid2) (preResolved_dij st uid1 uid2),
       friendship_degree_dij (liveConn_dij st uid1 uid2)
         (preResolved_dij st uid1 uid2).g) := by
  unfold preResolved_dij liveConn_dij at *
  simp only [processPayment_dij]
  rw [if_neg h]

lemma edgeb_update_network_bfs_self (c : Nat × Nat) (st : BfsState)
    (h : edgeb st.g c.1 c.2 = false) :
    edgeb (update_network_bfs c st).g c.1 c.2 = true := by
  simp [update_network_bfs, h, edgeb_addEdge_self]

lemma edgeb_update_network_dij_self (c : Nat × Nat) (st : DijState)
    (h : edgeb st.g c.1 c.2 = false) :
    edgeb (update_network_dij c st).g c.1 c.2 = true := by
  simp [update_network_dij, h, edgeb_addEdge_self]

/-- C6: the classifier is a pure function of the degree with fixed
thresholds: Tier1 trusted iff degree ≤ 1, Tier2 iff ≤ 2, Tier3 iff ≤ 4;
degree 1 is trusted on all tiers and the unreachable sentinel is
unverified on all tiers. -/
theorem classifier_thresholds :
    (∀ d : Int, ((classify d).1 = true ↔ d ≤ 1) ∧
      ((classify d).2.1 = true ↔ d ≤ 2) ∧ ((classify d).2.2 = true ↔ d ≤ 4)) ∧
    classify 1 = (true, true, true) ∧
    classify intMax = (false, false, false) := by
  refine ⟨fun d => ⟨?_, ?_, ?_⟩, by decide, by decide⟩ <;>
    simp [classify]

/-- C10: the live-mode direct-connection check of the BFS variant reads the
friends map with operator[], inserting a default-false entry for an unseen
key; this mutation never changes the is_connected answer of any pair. -/
theorem friends_operator_index_frame :
    ∀ (m : List (Int × Bool)) (k : Int),
      (alookup m k = none → alookup (mapGetInsert m k).2 k = some false) ∧
      (∀ p : Nat × Nat, is_connectedf (mapGetInsert m k).2 p = is_connectedf m p) := by
  intro m k
  constructor
  · intro h
    simp only [mapGetInsert, h]
    rw [alookup_append]
    simp [h, alookup]
  · intro p
    unfold is_connectedf
    cases h : alookup m k with
    | some b => simp [mapGetInsert, h]
    | none =>
      simp only [mapGetInsert, h]
      rw [alookup_append]
      cases hq : alookup m (perfect_hash (p.1 : Int) (p.2 : Int)) with
      | some v => simp
      | none =>
        by_cases hk : k = perfect_hash (p.1 : Int) (p.2 : Int)
        · simp [alookup, hk]
        · simp [alookup, hk]

/-- Witness for C10 at a concrete map and key. -/
theorem friends_operator_index_frame_witness :
    alookup (mapGetInsert ([] : List (Int × Bool)) 0).2 0 = some false :=
  (friends_operator_index_frame [] 0).1 rfl

/-- C5: perfect_hash is injective over ordered node-index pairs, and after
an edge insertion that actually inserts, exactly that pair's is_connected
answer becomes true while every other pair's answer is unchanged. -/
theorem connection_index_consistent :
    (∀ a b c d : Nat,
      perfect_hash (a : Int) (b : Int) = perfect_hash (c : Int) (d : Int) →
      a = c ∧ b = d) ∧
    (∀ (st : BfsState) (conn : Nat × Nat),
      edgeb st.g conn.1 conn.2 = false →
      is_connectedf (update_network_bfs conn st).friends conn = true ∧
      ∀ p : Nat × Nat, p ≠ conn →
        is_connectedf (update_network_bfs conn st).friends p =
          is_connectedf st.friends p) := by
  refine ⟨perfect_hash_nat_inj, ?_⟩
  intro st conn h
  unfold update_network_bfs
  rw [if_neg (by simp [h])]
  constructor
  · unfold is_connectedf
    simp [alookup_mapSet_self]
  · intro p hp
    unfold is_connectedf
    have hne : perfect_hash (p.1 : Int) (p.2 : Int) ≠
        perfect_hash (conn.1 : Int) (conn.2 : Int) := by
      intro hh
      have h2 := perfect_hash_nat_inj p.1 p.2 conn.1 conn.2 hh
      exact hp (Prod.ext_iff.2 ⟨h2.1, h2.2⟩)
    rw [alookup_mapSet_ne st.friends _ _ true hne]

/-- Witness for C5 at a concrete state and pair. -/
theorem connection_index_consistent_witness :
    is_connectedf (update_network_bfs (0, 1) initBfs).friends (0, 1) = true :=
  (connection_index_consistent.2 initBfs (0, 1) (by decide)).1

/-- C8: edge insertion is idempotent in both variants: a second insertion
of the same (unordered, thanks to canonicalization) pair changes no
has_edge answer, no is_connected answer, and no degree. -/
theorem edge_insertion_idempotent :
    (∀ a b : Nat, create_connection a b = create_connection b a) ∧
    (∀ (c : Nat × Nat) (st : BfsState),
      (∀ p q : Nat,
        edgeb (update_network_bfs c (update_network_bfs c st)).g p q =
          edgeb (update_network_bfs c st).g p q) ∧
      (∀ p : Nat × Nat,
        is_connectedf (update_network_bfs c (update_network_bfs c st)).friends p =
          is_connectedf (update_network_bfs c st).friends p) ∧
      (∀ p : Nat × Nat,
        friendship_degree_bfs p (update_network_bfs c (update_network_bfs c st)).g =
          friendship_degree_bfs p (update_network_bfs c st).g)) ∧
    (∀ (c : Nat × Nat) (st : DijState),
      (∀ p q : Nat,
        edgeb (update_network_dij c (update_network_dij c st)).g p q =
          edgeb (update_network_dij c st).g p q) ∧
      (∀ p : Nat × Nat,
        (p ∈ (update_network_dij c (update_network_dij c st)).connections ↔
          p ∈ (update_network_dij c st).connections)) ∧
      (∀ p : Nat × Nat,
        friendship_degree_dij p (update_network_dij c (update_network_dij c st)).g =
          friendship_degree_dij p (update_network_dij c st).g)) := by
  refine ⟨?_, ?_, ?_⟩
  · intro a b
    unfold create_connection
    by_cases h1 : a < b
    · rw [if_pos h1, if_neg (by omega)]
    · by_cases h2 : b < a
      · rw [if_neg h1, if_pos h2]
      · have h3 : a = b := by omega
        subst h3
        rfl
  · intro c st
    rw [update_network_bfs_idem]
    exact ⟨fun p q => rfl, fun p => rfl, fun p => rfl⟩
  · intro c st
    rw [update_network_dij_idem]
    exact ⟨fun p q => rfl, fun p => Iff.rfl, fun p => rfl⟩

/-- C3 (code bug): `update_network` performs no `a == b` check, so a
self-payment pair inserts a self-loop on its first occurrence, in both
variants: on a one-vertex graph with no edges, the pair (0,0) goes in. -/
theorem update_network_inserts_self_loop :
    edgeb (update_network_bfs (0, 0) ⟨[(7, 0)], [(0, 7)], ⟨1, []⟩, []⟩).g 0 0 = true ∧
    edgeb (update_network_dij (0, 0) ⟨[(7, 0)], [(0, 7)], ⟨1, []⟩, []⟩).g 0 0 = true ∧
    edgeb (⟨1, []⟩ : Graph) 0 0 = false := by
  decide

/-- C1: in live mode, for a streamed pair whose resolved nodes are not
already directly connected, the returned degree is the one computed on the
graph strictly before this payment's edge is inserted, and after the call
the edge and its connection-index entry are present for later payments. -/
theorem live_degree_uses_preinsertion_graph :
    (∀ (st : BfsState) (uid1 uid2 : Int),
      is_connectedf (preResolved_bfs st uid1 uid2).friends
        (liveConn_bfs st uid1 uid2) = false →
      edgeb (preResolved_bfs st uid1 uid2).g (liveConn_bfs st uid1 uid2).1
        (liveConn_bfs st uid1 uid2).2 = false →
      (processPayment_bfs st uid1 uid2).2 =
        friendship_degree_bfs (liveConn_bfs st uid1 uid2)
          (preResolved_bfs st uid1 uid2).g ∧
      edgeb (processPayment_bfs st uid1 uid2).1.g (liveConn_bfs st uid1 uid2).1
        (liveConn_bfs st uid1 uid2).2 = true ∧
      is_connectedf (processPayment_bfs st uid1 uid2).1.friends
        (liveConn_bfs st uid1 uid2) = true) ∧
    (∀ (st : DijState) (uid1 uid2 : Int),
      liveConn_dij st uid1 uid2 ∉ (preResolved_dij st uid1 uid2).connections →
      edgeb (preResolved_dij st uid1 uid2).g (liveConn_dij st uid1 uid2).1
        (liveConn_dij st uid1 uid2).2 = false →
      (processPayment_dij st uid1 uid2).2 =
        friendship_degree_dij (liveConn_dij st uid1 uid2)
          (preResolved_dij st uid1 uid2).g ∧
      edgeb (processPayment_dij st uid1 uid2).1.g (liveConn_dij st uid1 uid2).1
        (liveConn_dij st uid1 uid2).2 = true ∧
      liveConn_dij st uid1 uid2 ∈ (processPayment_dij st uid1 uid2).1.connections) := by
  constructor
  · intro st uid1 uid2 hconn hedge
    rw [processPayment_bfs_not_connected st uid1 uid2 hconn]
    refine ⟨rfl, ?_, ?_⟩
    · exact edgeb_update_network_bfs_self _ _ hedge
    · unfold update_network_bfs
      rw [if_neg (by simp [hedge])]
      unfold is_connectedf
      simp [alookup_mapSet_self]
  · intro st uid1 uid2 hconn hedge
    rw [processPayment_dij_not_connected st uid1 uid2 hconn]
    refine ⟨rfl, ?_, ?_⟩
    · exact edgeb_update_network_dij_self _ _ hedge
    · unfold update_network_dij
      rw [if_neg (by simp [hedge])]
      simp [hconn]

/-- Witness for C1 at a concrete state and payment. -/
theorem live_degree_uses_preinsertion_graph_witness :
    (processPayment_bfs initBfs 1 2).2 =
      friendship_degree_bfs (liveConn_bfs initBfs 1 2) (preResolved_bfs initBfs 1 2).g :=
  (live_degree_uses_preinsertion_graph.1 initBfs 1 2 (by decide) (by decide)).1

lemma ball_zero (g : Graph) (s : Nat) : ball g s 0 = [s] := rfl

lemma ball_succ (g : Graph) (s k : Nat) : ball g s (k + 1) = expand g (ball g s k) := rfl

lemma mem_expand {g : Graph} {S : List Nat} {v : Nat} :
    v ∈ expand g S ↔ v ∈ S ∨ (v < g.n ∧ v ∉ S ∧ ∃ u ∈ S, edgeb g u v = true) := by
  unfold expand
  simp [List.mem_append, List.mem_filter, List.mem_range, decide_eq_true_eq]

lemma ball_subset_succ (g : Graph) (s k : Nat) : ball g s k ⊆ ball g s (k + 1) :=
  fun _ hv => List.mem_append_left _ hv

lemma ball_mono (g : Graph) (s : Nat) {j k : Nat} (h : j ≤ k) :
    ball g s j ⊆ ball g s k := by
  induction h with
  | refl => exact fun v hv => hv
  | step _ ih => exact fun v hv => ball_subset_succ g s _ (ih hv)

lemma mem_ball_self (g : Graph) (s k : Nat) : s ∈ ball g s k :=
  ball_mono g s (Nat.zero_le k) (by simp [ball_zero])

lemma ball_lt_n {g : Graph} {s : Nat} (hs : s < g.n) :
    ∀ k v, v ∈ ball g s k → v < g.n := by
  intro k
  induction k with
  | zero =>
    intro v hv
    simp [ball_zero] at hv
    omega
  | succ k ih =>
    intro v hv
    rcases mem_expand.1 hv with h | h
    · exact ih v h
    · exact h.1

lemma ball_nodup (g : Graph) (s k : Nat) : (ball g s k).Nodup := by
  induction k with
  | zero => simp [ball_zero]
  | succ k ih =>
    rw [ball_succ]
    unfold expand
    refine List.Nodup.append ih (List.Nodup.filter _ (List.nodup_range g.n)) ?_
    intro v hv1 hv2
    rcases List.mem_filter.1 hv2 with ⟨_, hp⟩
    exact (of_decide_eq_true hp).1 hv1

lemma ball_subset_range {g : Graph} {s : Nat} (hs : s < g.n) (k : Nat) :
    ball g s k ⊆ List.range g.n :=
  fun v hv => List.mem_range.2 (ball_lt_n hs k v hv)

lemma ball_length_le {g : Graph} {s : Nat} (hs : s < g.n) (k : Nat) :
    (ball g s k).length ≤ g.n := by
  have h1 : List.Subperm (ball g s k) (List.range g.n) :=
    (ball_nodup g s k).subperm (ball_subset_range hs k)
  simpa using h1.length_le

lemma ball_stable {g : Graph} {s k : Nat} (h : ball g s (k + 1) = ball g s k) :
    ∀ j, k ≤ j → ball g s j = ball g s k := by
  intro j hj
  induction j, hj using Nat.le_induction with
  | base => rfl
  | succ j hj ih =>
    have h2 : expand g (ball g s j) = expand g (ball g s k) := by rw [ih]
    rw [ball_succ, h2, ← ball_succ, h]

lemma isWalk_zero {g : Graph} {v t : Nat} (h : IsWalk g v t 0) : v = t := by
  cases h
  rfl

lemma isWalk_snoc {g : Graph} {s u t k : Nat} (hw : IsWalk g s u k)
    (ha : adjacent g u t) : IsWalk g s t (k + 1) := by
  induction hw with
  | nil w => exact IsWalk.cons ha (IsWalk.nil t)
  | cons h1 _ ih => exact IsWalk.cons h1 (ih ha)

lemma isWalk_decomp {g : Graph} :
    ∀ {s t k : Nat}, IsWalk g s t (k + 1) → ∃ u, IsWalk g s u k ∧ adjacent g u t := by
  intro s t k
  induction k generalizing s with
  | zero =>
    intro h
    cases h with
    | cons ha hw => exact ⟨s, IsWalk.nil s, by rwa [isWalk_zero hw] at ha⟩
  | succ k ih =>
    intro h
    cases h with
    | cons ha hw =>
      rcases ih hw with ⟨u, hu, hadj⟩
      exact ⟨u, IsWalk.cons ha hu, hadj⟩

lemma adjacent_lt {g : Graph} (hwf : WF g) {u v : Nat} (h : adjacent g u v) :
    u < g.n ∧ v < g.n := by
  rcases h with h | h
  · exact ⟨(hwf _ h).1, (hwf _ h).2⟩
  · exact ⟨(hwf _ h).2, (hwf _ h).1⟩

lemma mem_ball_succ_of_adj {g : Graph} {s u v k : Nat} (hu : u ∈ ball g s k)
    (ha : adjacent g u v) (hv : v < g.n) : v ∈ ball g s (k + 1) := by
  by_cases h : v ∈ ball g s k
  · exact ball_subset_succ g s k h
  · rw [ball_succ]
    exact mem_expand.2 (Or.inr ⟨hv, h, u, hu, (edgeb_iff g u v).2 ha⟩)

lemma isWalk_mem_ball {g : Graph} (hwf : WF g) {s : Nat} :
    ∀ {k t : Nat}, IsWalk g s t k → t ∈ ball g s k := by
  intro k
  induction k with
  | zero =>
    intro t h
    have h2 := isWalk_zero h
    subst h2
    exact mem_ball_self g s 0
  | succ k ih =>
    intro t h
    rcases isWalk_decomp h with ⟨u, hu, ha⟩
    exact mem_ball_succ_of_adj (ih hu) ha (adjacent_lt hwf ha).2

lemma mem_ball_isWalk {g : Graph} {s : Nat} :
    ∀ {k t : Nat}, t ∈ ball g s k → ∃ j ≤ k, IsWalk g s t j := by
  intro k
  induction k with
  | zero =>
    intro t h
    simp [ball_zero] at h
    subst h
    exact ⟨0, Nat.le_refl 0, IsWalk.nil t⟩
  | succ k ih =>
    intro t h
    rcases mem_expand.1 h with h2 | ⟨hn, hns, u, hu, he⟩
    · rcases ih h2 with ⟨j, hj, hw⟩
      exact ⟨j, by omega, hw⟩
    · rcases ih hu with ⟨j, hj, hw⟩
      exact ⟨j + 1, by omega, isWalk_snoc hw ((edgeb_iff g u t).1 he)⟩

lemma shortestDist_iff_firstBall {g : Graph} (hwf : WF g) {s t d : Nat} :
    shortestDist g s t d ↔ firstBall g s t d := by
  constructor
  · rintro ⟨hw, hmin⟩
    refine ⟨isWalk_mem_ball hwf hw, ?_⟩
    intro j hj hmem
    rcases mem_ball_isWalk hmem with ⟨i, hi, hw2⟩
    have := hmin i hw2
    omega
  · rintro ⟨hmem, hfirst⟩
    rcases mem_ball_isWalk hmem with ⟨i, hi, hw⟩
    have hieq : i = d := by
      by_contra hne
      exact hfirst i (by omega) (isWalk_mem_ball hwf hw)
    subst hieq
    refine ⟨hw, ?_⟩
    intro j hwj
    by_contra hlt
    push_neg at hlt
    exact hfirst j (by omega) (isWalk_mem_ball hwf hwj)

lemma noWalk_iff_not_ball {g : Graph} (hwf : WF g) {s t : Nat} :
    noWalk g s t ↔ ∀ j, t ∉ ball g s j := by
  constructor
  · intro h j hmem
    rcases mem_ball_isWalk hmem with ⟨i, _, hw⟩
    exact h i hw
  · intro h j hw
    exact h j (isWalk_mem_ball hwf hw)

lemma firstBall_unique {g : Graph} {s t m m' : Nat} (h1 : firstBall g s t m)
    (h2 : firstBall g s t m') : m = m' := by
  by_contra h
  rcases Nat.lt_or_ge m m' with hlt | hge
  · exact h2.2 m hlt h1.1
  · exact h1.2 m' (by omega) h2.1

lemma bfsLoop_spec {g : Graph} {s t : Nat} (hs : s < g.n) :
    ∀ (fuel d : Nat) (visited frontier : List Nat),
      visited = ball g s d →
      (∀ v, v ∈ frontier ↔ (v ∈ ball g s d ∧ (d = 0 ∨ v ∉ ball g s (d - 1)))) →
      t ∉ ball g s d →
      d + 1 ≤ (ball g s d).length →
      g.n ≤ fuel + d →
      (∀ m, firstBall g s t m → bfsLoop g t fuel visited frontier d = some m) ∧
      ((∀ j, t ∉ ball g s j) → bfsLoop g t fuel visited frontier d = none) := by
  intro fuel
  induction fuel with
  | zero =>
    intro d visited frontier hv hf ht hlen hfuel
    have hle := ball_length_le hs d
    exact False.elim (by omega)
  | succ fuel ih =>
    intro d visited frontier hv hf ht hlen hfuel
    subst hv
    set N := (List.range g.n).filter
      (fun v => decide (v ∉ ball g s d ∧ ∃ u ∈ frontier, edgeb g u v = true)) with hNdef
    have hnxt : N = (List.range g.n).filter
        (fun v => decide (v ∉ ball g s d ∧ ∃ u ∈ ball g s d, edgeb g u v = true)) := by
      rw [hNdef]
      apply List.filter_congr
      intro v hv2
      rw [decide_eq_decide]
      constructor
      · rintro ⟨h1, u, hu, he⟩
        exact ⟨h1, u, ((hf u).1 hu).1, he⟩
      · rintro ⟨h1, u, hu, he⟩
        refine ⟨h1, u, ?_, he⟩
        rw [hf u]
        refine ⟨hu, ?_⟩
        rcases Nat.eq_zero_or_pos d with hd | hd
        · exact Or.inl hd
        · right
          intro hub
          have hvn : v < g.n := List.mem_range.1 hv2
          have h3 : v ∈ ball g s (d - 1 + 1) :=
            mem_ball_succ_of_adj hub ((edgeb_iff g u v).1 he) hvn
          rw [show d - 1 + 1 = d by omega] at h3
          exact h1 h3
    have hballs : ball g s (d + 1) = ball g s d ++ N := by
      rw [ball_succ]
      unfold expand
      rw [hnxt]
    have hred : bfsLoop g t (fuel + 1) (ball g s d) frontier d =
        if t ∈ N then some (d + 1)
        else if N = [] then none
        else bfsLoop g t fuel (ball g s d ++ N) N (d + 1) := rfl
    by_cases htN : t ∈ N
    · have htball : t ∈ ball g s (d + 1) := by
        rw [hballs]
        exact List.mem_append_right _ htN
      have hfb : firstBall g s t (d + 1) :=
        ⟨htball, fun j hj hmem => ht (ball_mono g s (by omega) hmem)⟩
      constructor
      · intro m hm
        rw [hred, if_pos htN, firstBall_unique hfb hm]
      · intro hall
        exact absurd htball (hall (d + 1))
    · by_cases hNnil : N = []
      · have hstab : ball g s (d + 1) = ball g s d := by
          rw [hballs, hNnil, List.append_nil]
        have hall2 : ∀ j, t ∉ ball g s j := by
          intro j
          rcases le_or_lt j d with hj | hj
          · exact fun hmem => ht (ball_mono g s hj hmem)
          · rw [ball_stable hstab j (by omega)]
            exact ht
        constructor
        · intro m hm
          exact absurd hm.1 (hall2 m)
        · intro _
          rw [hred, if_neg htN, if_pos hNnil]
      · have h1 : ball g s d ++ N = ball g s (d + 1) := hballs.symm
        have h2 : ∀ v, v ∈ N ↔
            (v ∈ ball g s (d + 1) ∧ (d + 1 = 0 ∨ v ∉ ball g s (d + 1 - 1))) := by
          intro v
          rw [Nat.add_sub_cancel]
          constructor
          · intro hvN
            have hvN2 := hNdef ▸ hvN
            simp only [List.mem_filter, decide_eq_true_eq] at hvN2
            refine ⟨?_, Or.inr hvN2.2.1⟩
            rw [hballs]
            exact List.mem_append_right _ hvN
          · rintro ⟨hvb, hvd⟩
            rcases hvd with hvd | hvd
            · omega
            · rw [hballs] at hvb
              rcases List.mem_append.1 hvb with h3 | h3
              · exact absurd h3 hvd
              · exact h3
        have h3 : t ∉ ball g s (d + 1) := by
          rw [hballs]
          intro hmem
          rcases List.mem_append.1 hmem with h4 | h4
          · exact ht h4
          · exact htN h4
        have h4 : d + 1 + 1 ≤ (ball g s (d + 1)).length := by
          rw [hballs, List.length_append]
          have h5 : 1 ≤ N.length := by
            rcases N with _ | ⟨a, N⟩
            · exact absurd rfl hNnil
            · simp
          omega
        have h5 : g.n ≤ fuel + (d + 1) := by omega
        have hIH := ih (d + 1) (ball g s d ++ N) N h1 h2 h3 h4 h5
        constructor
        · intro m hm
          rw [hred, if_neg htN, if_neg hNnil]
          exact hIH.1 m hm
        · intro hall
          rw [hred, if_neg htN, if_neg hNnil]
          exact hIH.2 hall

lemma friendship_degree_bfs_spec {g : Graph} (hwf : WF g) {s t : Nat}
    (hs : s < g.n) (hts : t ≠ s) :
    (∀ d, shortestDist g s t d → friendship_degree_bfs (s, t) g = (d : Int)) ∧
    (noWalk g s t → friendship_degree_bfs (s, t) g = intMax) := by
  have hinit := bfsLoop_spec (g := g) (s := s) (t := t) hs g.n 0 [s] [s] rfl
    (by intro v; simp [ball_zero])
    (by simp [ball_zero]; exact hts)
    (by simp [ball_zero])
    (by omega)
  constructor
  · intro d hsd
    have hfb : firstBall g s t d := (shortestDist_iff_firstBall hwf).1 hsd
    unfold friendship_degree_bfs
    rw [if_neg hts, hinit.1 d hfb]
  · intro hnw
    have hall : ∀ j, t ∉ ball g s j := (noWalk_iff_not_ball hwf).1 hnw
    unfold friendship_degree_bfs
    rw [if_neg hts, hinit.2 hall]

lemma candMinAux_spec (finalized : List Nat) (dist : Nat → Option Nat) :
    ∀ l : List Nat, IsMinCand finalized dist l (candMinAux finalized dist l) := by
  intro l
  induction l with
  | nil =>
    show IsMinCand finalized dist [] none
    intro v hv
    cases hv
  | cons v l ih =>
    by_cases hvf : v ∈ finalized
    · have hred : candMinAux finalized dist (v :: l) = candMinAux finalized dist l := by
        simp [candMinAux, hvf]
      rw [hred]
      rcases hrest : candMinAux finalized dist l with _ | ⟨u, du⟩ <;> rw [hrest] at ih
      · intro w hw hwf
        rcases List.mem_cons.1 hw with h | h
        · subst h; exact absurd hvf hwf
        · exact ih w h hwf
      · refine ⟨List.mem_cons_of_mem v ih.1, ih.2.1, ih.2.2.1, ?_⟩
        intro w hw hwf dw hdw
        rcases List.mem_cons.1 hw with h | h
        · subst h; exact absurd hvf hwf
        · exact ih.2.2.2 w h hwf dw hdw
    · rcases hdv : dist v with _ | dv
      · have hred : candMinAux finalized dist (v :: l) = candMinAux finalized dist l := by
          simp [candMinAux, hvf, hdv]
        rw [hred]
        rcases hrest : candMinAux finalized dist l with _ | ⟨u, du⟩ <;> rw [hrest] at ih
        · intro w hw hwf
          rcases List.mem_cons.1 hw with h | h
          · subst h; exact hdv
          · exact ih w h hwf
        · refine ⟨List.mem_cons_of_mem v ih.1, ih.2.1, ih.2.2.1, ?_⟩
          intro w hw hwf dw hdw
          rcases List.mem_cons.1 hw with h | h
          · subst h; rw [hdv] at hdw; cases hdw
          · exact ih.2.2.2 w h hwf dw hdw
      · rcases hrest : candMinAux finalized dist l with _ | ⟨u, du⟩ <;> rw [hrest] at ih
        · have hred : candMinAux finalized dist (v :: l) = some (v, dv) := by
            simp [candMinAux, hvf, hdv, hrest]
          rw [hred]
          refine ⟨List.mem_cons_self v l, hvf, hdv, ?_⟩
          intro w hw hwf dw hdw
          rcases List.mem_cons.1 hw with h | h
          · subst h; rw [hdv] at hdw; injection hdw with h2; omega
          · rw [ih w h hwf] at hdw; cases hdw
        · by_cases hle : dv ≤ du
          · have hred : candMinAux finalized dist (v :: l) = some (v, dv) := by
              simp [candMinAux, hvf, hdv, hrest, hle]
            rw [hred]
            refine ⟨List.mem_cons_self v l, hvf, hdv, ?_⟩
            intro w hw hwf dw hdw
            rcases List.mem_cons.1 hw with h | h
            · subst h; rw [hdv] at hdw; injection hdw with h2; omega
            · have h3 := ih.2.2.2 w h hwf dw hdw
              omega
          · have hred : candMinAux finalized dist (v :: l) = some (u, du) := by
              simp [candMinAux, hvf, hdv, hrest, hle]
            rw [hred]
            refine ⟨List.mem_cons_of_mem v ih.1, ih.2.1, ih.2.2.1, ?_⟩
            intro w hw hwf dw hdw
            rcases List.mem_cons.1 hw with h | h
            · subst h; rw [hdv] at hdw; injection hdw with h2; omega
            · exact ih.2.2.2 w h hwf dw hdw

lemma candMin_none {g : Graph} {finalized : List Nat} {dist : Nat → Option Nat}
    (h : candMin g finalized dist = none) :
    ∀ v, v < g.n → v ∉ finalized → dist v = none := by
  have hspec := candMinAux_spec finalized dist (List.range g.n)
  rw [show candMinAux finalized dist (List.range g.n) = candMin g finalized dist from rfl,
    h] at hspec
  intro v hv hvf
  exact hspec v (List.mem_range.2 hv) hvf

lemma candMin_some {g : Graph} {finalized : List Nat} {dist : Nat → Option Nat}
    {u du : Nat} (h : candMin g finalized dist = some (u, du)) :
    u < g.n ∧ u ∉ finalized ∧ dist u = some du ∧
      ∀ v, v < g.n → v ∉ finalized → ∀ dv, dist v = some dv → du ≤ dv := by
  have hspec := candMinAux_spec finalized dist (List.range g.n)
  rw [show candMinAux finalized dist (List.range g.n) = candMin g finalized dist from rfl,
    h] at hspec
  exact ⟨List.mem_range.1 hspec.1, hspec.2.1, hspec.2.2.1,
    fun v hv hvf dv hdv => hspec.2.2.2 v (List.mem_range.2 hv) hvf dv hdv⟩

lemma dijkstraLoop_spec {g : Graph} (hwf : WF g) {s t : Nat} (hs : s < g.n) :
    ∀ (fuel k : Nat) (F finalized : List Nat) (dist : Nat → Option Nat),
      DijInv g s t k F finalized dist →
      g.n + 1 ≤ fuel + finalized.length →
      (∀ m, firstBall g s t m → dijkstraLoop g t fuel finalized dist = some m) ∧
      ((∀ j, t ∉ ball g s j) → dijkstraLoop g t fuel finalized dist = none) := by
  intro fuel
  induction fuel with
  | zero =>
    rintro k F finalized dist ⟨ha, hb, hc, hd1, hd2, hnd, hlt, htf⟩ hfuel
    have hsub : finalized ⊆ List.range g.n := fun v hv => List.mem_range.2 (hlt v hv)
    have hlen : finalized.length ≤ g.n := by
      have h1 : List.Subperm finalized (List.range g.n) := hnd.subperm hsub
      simpa using h1.length_le
    exact False.elim (by omega)
  | succ fuel ih =>
    rintro k F finalized dist ⟨ha, hb, hc, hd1, hd2, hnd, hlt, htf⟩ hfuel
    have hred : dijkstraLoop g t (fuel + 1) finalized dist =
        (match candMin g finalized dist with
         | none => none
         | some (u, du) =>
           if u = t then some du
           else dijkstraLoop g t fuel (finalized ++ [u]) (relax g u du dist)) := rfl
    rcases hcm : candMin g finalized dist with _ | ⟨u, du⟩
    · have hnone := candMin_none hcm
      have hBkfin : ∀ v ∈ ball g s k, v ∈ finalized := by
        intro v hv
        by_contra hvnf
        have hg1 : 1 ≤ k → v ∉ ball g s (k - 1) := fun hk hmem =>
          hvnf ((ha v).2 (Or.inl ⟨hk, hmem⟩))
        have hg2 : v ∉ F := fun hmem => hvnf ((ha v).2 (Or.inr hmem))
        have hdv := hc v hv hg1 hg2
        rw [hnone v (ball_lt_n hs k v hv) hvnf] at hdv
        cases hdv
      have hstab0 : ball g s (k + 1) = ball g s k := by
        rw [ball_succ]
        unfold expand
        have hnil : (List.range g.n).filter
            (fun v => decide (v ∉ ball g s k ∧ ∃ u ∈ ball g s k, edgeb g u v = true)) =
            ([] : List Nat) := by
          rw [List.filter_eq_nil_iff]
          intro v hv hp
          rcases of_decide_eq_true hp with ⟨hvnB, w, hw, hedge⟩
          rcases (ha w).1 (hBkfin w hw) with ⟨hk1, hwB⟩ | hwF
          · have h3 : v ∈ ball g s (k - 1 + 1) :=
              mem_ball_succ_of_adj hwB ((edgeb_iff g w v).1 hedge) (List.mem_range.1 hv)
            rw [show k - 1 + 1 = k by omega] at h3
            exact hvnB h3
          · have hvd := hd1 v hvnB ⟨w, hwF, hedge⟩
            have hvnf : v ∉ finalized := by
              intro hvf
              rcases (ha v).1 hvf with ⟨hk1, hvB⟩ | hvF
              · exact hvnB (ball_mono g s (by omega) hvB)
              · exact hvnB (hb v hvF).1
            rw [hnone v (List.mem_range.1 hv) hvnf] at hvd
            cases hvd
        rw [hnil, List.append_nil]
      have htk : t ∉ ball g s k := fun hmem => htf (hBkfin t hmem)
      have hall2 : ∀ j, t ∉ ball g s j := by
        intro j
        rcases le_or_lt j k with hj | hj
        · exact fun hmem => htk (ball_mono g s hj hmem)
        · rw [ball_stable hstab0 j (by omega)]
          exact htk
      constructor
      · intro m hm
        exact absurd hm.1 (hall2 m)
      · intro _
        rw [hred, hcm]
    · rcases candMin_some hcm with ⟨hun, hunf, hud, hmin⟩
      by_cases hub : u ∈ ball g s k
      · -- the selected vertex lies in the current layer, so du = k
        have hgu1 : 1 ≤ k → u ∉ ball g s (k - 1) := fun hk hmem =>
          hunf ((ha u).2 (Or.inl ⟨hk, hmem⟩))
        have hguF : u ∉ F := fun hmem => hunf ((ha u).2 (Or.inr hmem))
        have hdu : du = k := by
          have h1 := hc u hub hgu1 hguF
          rw [hud] at h1
          injection h1 with h2
        subst hdu
        have hfbu : firstBall g s u du := by
          refine ⟨hub, ?_⟩
          intro j hj hmem
          exact hgu1 (by omega) (ball_mono g s (by omega) hmem)
        by_cases hut : u = t
        · subst hut
          constructor
          · intro m hm
            rw [hred]
            simp only [hcm, if_true]
            rw [firstBall_unique hfbu hm]
          · intro hall
            exact absurd hub (hall du)
        · have hInv2 : DijInv g s t du (F ++ [u]) (finalized ++ [u])
              (relax g u du dist) := by
            refine ⟨?_, ?_, ?_, ?_, ?_, ?_, ?_, ?_⟩
            · intro v
              constructor
              · intro hv
                rcases List.mem_append.1 hv with hv | hv
                · rcases (ha v).1 hv with h | h
                  · exact Or.inl h
                  · exact Or.inr (List.mem_append_left _ h)
                · exact Or.inr (List.mem_append_right _ hv)
              · intro hv
                rcases hv with h | h
                · exact List.mem_append_left _ ((ha v).2 (Or.inl h))
                · rcases List.mem_append.1 h with h2 | h2
                  · exact List.mem_append_left _ ((ha v).2 (Or.inr h2))
                  · exact List.mem_append_right _ h2
            · intro v hv
              rcases List.mem_append.1 hv with hv | hv
              · exact hb v hv
              · have h2 := List.mem_singleton.1 hv
                subst h2
                exact ⟨hub, hgu1⟩
            · intro v hv hg1 hgF
              have hvF : v ∉ F := fun h => hgF (List.mem_append_left _ h)
              have hold := hc v hv hg1 hvF
              simp only [relax]
              by_cases hadj : edgeb g u v
              · rw [if_pos hadj]
                simp only [hold]
                rw [min_eq_left (by omega)]
              · rw [if_neg hadj, hold]
            · intro v hvnB hex
              simp only [relax]
              rcases hex with ⟨w, hw, hedge⟩
              rcases List.mem_append.1 hw with hwF | hwu
              · have hold := hd1 v hvnB ⟨w, hwF, hedge⟩
                by_cases hadj : edgeb g u v
                · rw [if_pos hadj]
                  simp only [hold]
                  rw [min_self]
                · rw [if_neg hadj, hold]
              · have hwu2 := List.mem_singleton.1 hwu
                subst hwu2
                rw [if_pos hedge]
                by_cases hexF : ∃ w2 ∈ F, edgeb g w2 v = true
                · have hold := hd1 v hvnB hexF
                  simp only [hold]
                  rw [min_self]
                · have hold := hd2 v hvnB hexF
                  simp only [hold]
            · intro v hvnB hnex
              have hnF : ¬ ∃ w ∈ F, edgeb g w v = true := by
                rintro ⟨w, hw, he⟩
                exact hnex ⟨w, List.mem_append_left _ hw, he⟩
              have hnu : ¬ (edgeb g u v = true) := fun he =>
                hnex ⟨u, List.mem_append_right _ (List.mem_singleton.2 rfl), he⟩
              simp only [relax]
              rw [if_neg hnu]
              exact hd2 v hvnB hnF
            · refine List.Nodup.append hnd (List.nodup_singleton u) ?_
              intro x hx hx2
              exact hunf (by rwa [List.mem_singleton.1 hx2] at hx)
            · intro v hv
              rcases List.mem_append.1 hv with hv | hv
              · exact hlt v hv
              · rw [List.mem_singleton.1 hv]
                exact hun
            · intro hv
              rcases List.mem_append.1 hv with hv | hv
              · exact htf hv
              · exact hut (List.mem_singleton.1 hv).symm
          have hfuel2 : g.n + 1 ≤ fuel + (finalized ++ [u]).length := by
            rw [List.length_append, List.length_singleton]
            omega
          have hIH := ih du (F ++ [u]) (finalized ++ [u]) (relax g u du dist) hInv2 hfuel2
          constructor
          · intro m hm
            rw [hred]
            simp only [hcm]
            rw [if_neg hut]
            exact hIH.1 m hm
          · intro hall
            rw [hred]
            simp only [hcm]
            rw [if_neg hut]
            exact hIH.2 hall
      · -- the selected vertex lies in the next layer: du = k + 1 and layer k is done
        have hexF : ∃ w ∈ F, edgeb g w u = true := by
          by_contra hnex
          rw [hd2 u hub hnex] at hud
          cases hud
        have hdu : du = k + 1 := by
          have h1 := hd1 u hub hexF
          rw [hud] at h1
          injection h1 with h2
        subst hdu
        have hBkfin : ∀ v ∈ ball g s k, v ∈ finalized := by
          intro v hv
          by_contra hvnf
          have hg1 : 1 ≤ k → v ∉ ball g s (k - 1) := fun hk hmem =>
            hvnf ((ha v).2 (Or.inl ⟨hk, hmem⟩))
          have hg2 : v ∉ F := fun hmem => hvnf ((ha v).2 (Or.inr hmem))
          have hdv := hc v hv hg1 hg2
          have h3 := hmin v (ball_lt_n hs k v hv) hvnf k hdv
          omega
        rcases hexF with ⟨w0, hw0F, hw0e⟩
        have huB : u ∈ ball g s (k + 1) :=
          mem_ball_succ_of_adj (hb w0 hw0F).1 ((edgeb_iff g w0 u).1 hw0e) hun
        have hfbu : firstBall g s u (k + 1) :=
          ⟨huB, fun j hj hmem => hub (ball_mono g s (by omega) hmem)⟩
        by_cases hut : u = t
        · subst hut
          constructor
          · intro m hm
            rw [hred]
            simp only [hcm, if_true]
            rw [firstBall_unique hfbu hm]
          · intro hall
            exact absurd huB (hall (k + 1))
        · have hInv2 : DijInv g s t (k + 1) [u] (finalized ++ [u])
              (relax g u (k + 1) dist) := by
            refine ⟨?_, ?_, ?_, ?_, ?_, ?_, ?_, ?_⟩
            · intro v
              constructor
              · intro hv
                rcases List.mem_append.1 hv with hv | hv
                · rcases (ha v).1 hv with ⟨hk1, hvB⟩ | hvF
                  · refine Or.inl ⟨by omega, ?_⟩
                    rw [Nat.add_sub_cancel]
                    exact ball_mono g s (by omega) hvB
                  · refine Or.inl ⟨by omega, ?_⟩
                    rw [Nat.add_sub_cancel]
                    exact (hb v hvF).1
                · exact Or.inr hv
              · intro hv
                rcases hv with ⟨_, hvB⟩ | hv
                · rw [Nat.add_sub_cancel] at hvB
                  exact List.mem_append_left _ (hBkfin v hvB)
                · exact List.mem_append_right _ hv
            · intro v hv
              have hv2 := List.mem_singleton.1 hv
              subst hv2
              refine ⟨huB, ?_⟩
              intro _
              rw [Nat.add_sub_cancel]
              exact hub
            · intro v hvB hg1 hvnu
              have hvnBk : v ∉ ball g s k := by
                have h4 := hg1 (by omega)
                rwa [Nat.add_sub_cancel] at h4
              rcases mem_expand.1 hvB with h | ⟨hvn, _, w, hwB, hwe⟩
              · exact absurd h hvnBk
              · have hwF : w ∈ F := by
                  rcases (ha w).1 (hBkfin w hwB) with ⟨hk1, hwB1⟩ | hwF
                  · exfalso
                    have h3 : v ∈ ball g s (k - 1 + 1) :=
                      mem_ball_succ_of_adj hwB1 ((edgeb_iff g w v).1 hwe) hvn
                    rw [show k - 1 + 1 = k by omega] at h3
                    exact hvnBk h3
                  · exact hwF
                have hold := hd1 v hvnBk ⟨w, hwF, hwe⟩
                simp only [relax]
                by_cases hadj : edgeb g u v
                · rw [if_pos hadj]
                  simp only [hold]
                  rw [min_eq_left (by omega)]
                · rw [if_neg hadj, hold]
            · intro v hvnB hex
              rcases hex with ⟨w, hw, hwe⟩
              have hw2 := List.mem_singleton.1 hw
              subst hw2
              have hvnBk : v ∉ ball g s k := fun h => hvnB (ball_subset_succ g s k h)
              have hvn : v < g.n := (adjacent_lt hwf ((edgeb_iff g _ v).1 hwe)).2
              have hnexF : ¬ ∃ w1 ∈ F, edgeb g w1 v = true := by
                rintro ⟨w1, hw1F, hw1e⟩
                exact hvnB (mem_ball_succ_of_adj (hb w1 hw1F).1
                  ((edgeb_iff g w1 v).1 hw1e) hvn)
              have hold := hd2 v hvnBk hnexF
              simp only [relax]
              rw [if_pos hwe]
              simp only [hold]
            · intro v hvnB hnex
              have hnu : ¬ (edgeb g u v = true) := fun he =>
                hnex ⟨u, List.mem_singleton.2 rfl, he⟩
              have hvnBk : v ∉ ball g s k := fun h => hvnB (ball_subset_succ g s k h)
              have hnexF : ¬ ∃ w1 ∈ F, edgeb g w1 v = true := by
                rintro ⟨w1, hw1F, hw1e⟩
                have hvn : v < g.n := (adjacent_lt hwf ((edgeb_iff g w1 v).1 hw1e)).2
                exact hvnB (mem_ball_succ_of_adj (hb w1 hw1F).1
                  ((edgeb_iff g w1 v).1 hw1e) hvn)
              simp only [relax]
              rw [if_neg hnu]
              exact hd2 v hvnBk hnexF
            · refine List.Nodup.append hnd (List.nodup_singleton u) ?_
              intro x hx hx2
              exact hunf (by rwa [List.mem_singleton.1 hx2] at hx)
            · intro v hv
              rcases List.mem_append.1 hv with hv | hv
              · exact hlt v hv
              · rw [List.mem_singleton.1 hv]
                exact hun
            · intro hv
              rcases List.mem_append.1 hv with hv | hv
              · exact htf hv
              · exact hut (List.mem_singleton.1 hv).symm
          have hfuel2 : g.n + 1 ≤ fuel + (finalized ++ [u]).length := by
            rw [List.length_append, List.length_singleton]
            omega
          have hIH := ih (k + 1) [u] (finalized ++ [u]) (relax g u (k + 1) dist)
            hInv2 hfuel2
          constructor
          · intro m hm
            rw [hred]
            simp only [hcm]
            rw [if_neg hut]
            exact hIH.1 m hm
          · intro hall
            rw [hred]
            simp only [hcm]
            rw [if_neg hut]
            exact hIH.2 hall

lemma friendship_degree_dij_spec {g : Graph} (hwf : WF g) {s t : Nat}
    (hs : s < g.n) :
    (∀ d, shortestDist g s t d → friendship_degree_dij (s, t) g = (d : Int)) ∧
    (noWalk g s t → friendship_degree_dij (s, t) g = intMax) := by
  have hInv0 : DijInv g s t 0 [] [] (fun v => if v = s then some 0 else none) := by
    refine ⟨?_, ?_, ?_, ?_, ?_, ?_, ?_, ?_⟩
    · intro v
      simp
    · intro v hv
      cases hv
    · intro v hv _ _
      have h2 : v = s := by simpa [ball_zero] using hv
      subst h2
      simp
    · rintro v _ ⟨w, hw, _⟩
      cases hw
    · intro v hv _
      have h2 : ¬ (v = s) := by
        simpa [ball_zero] using hv
      simp [h2]
    · exact List.nodup_nil
    · intro v hv
      cases hv
    · intro hv
      cases hv
  have hspec := dijkstraLoop_spec hwf hs (g.n + 1) 0 [] []
    (fun v => if v = s then some 0 else none) hInv0 (by simp)
  constructor
  · intro d hsd
    have hfb := (shortestDist_iff_firstBall hwf).1 hsd
    simp only [friendship_degree_dij]
    rw [hspec.1 d hfb]
  · intro hnw
    simp only [friendship_degree_dij]
    rw [hspec.2 ((noWalk_iff_not_ball hwf).1 hnw)]

/-- C2: friendship_degree returns the exact shortest-path distance (in edge
count) for every pair of distinct, not directly connected nodes, and the
INT_MAX sentinel (not degree 0, not an error) when the target is
unreachable — in both source variants. -/
theorem friendship_degree_exact_shortest :
    ∀ (g : Graph), WF g → ∀ s t : Nat, s < g.n → t < g.n → s ≠ t →
      edgeb g s t = false →
      (∀ d, shortestDist g s t d →
        friendship_degree_bfs (s, t) g = (d : Int) ∧
        friendship_degree_dij (s, t) g = (d : Int)) ∧
      (noWalk g s t →
        friendship_degree_bfs (s, t) g = intMax ∧
        friendship_degree_dij (s, t) g = intMax) := by
  intro g hwf s t hs ht hst hedge
  have hb := friendship_degree_bfs_spec hwf hs (fun h => hst h.symm)
  have hd := friendship_degree_dij_spec hwf (s := s) (t := t) hs
  exact ⟨fun d hsd => ⟨hb.1 d hsd, hd.1 d hsd⟩, fun hnw => ⟨hb.2 hnw, hd.2 hnw⟩⟩

/-- Witness for C2 on the path graph 0 - 1 - 2: the degree of (0, 2) is 2. -/
theorem friendship_degree_exact_shortest_witness :
    friendship_degree_bfs (0, 2) ⟨3, [(0, 1), (1, 2)]⟩ = (2 : Int) ∧
    friendship_degree_dij (0, 2) ⟨3, [(0, 1), (1, 2)]⟩ = (2 : Int) := by
  have hwf2 : WF (⟨3, [(0, 1), (1, 2)]⟩ : Graph) := by
    unfold WF
    decide
  have h := friendship_degree_exact_shortest ⟨3, [(0, 1), (1, 2)]⟩ hwf2 0 2
    (by decide) (by decide) (by decide) (by decide)
  refine h.1 2 ⟨?_, ?_⟩
  · have ha1 : adjacent (⟨3, [(0, 1), (1, 2)]⟩ : Graph) 0 1 := by
      unfold adjacent
      decide
    have ha2 : adjacent (⟨3, [(0, 1), (1, 2)]⟩ : Graph) 1 2 := by
      unfold adjacent
      decide
    exact IsWalk.cons ha1 (IsWalk.cons ha2 (IsWalk.nil 2))
  · intro j hw
    by_contra hlt
    push_neg at hlt
    have h2 : (2 : Nat) ∈ ball (⟨3, [(0, 1), (1, 2)]⟩ : Graph) 0 1 :=
      ball_mono _ 0 (by omega) (isWalk_mem_ball hwf2 hw)
    revert h2
    decide

/-- C4: the plain BFS implementation and the unit-weight Dijkstra
implementation with early stop return the same degree on every well-formed
graph, for every pair of distinct, not directly connected nodes. -/
theorem bfs_dijkstra_same_degree :
    ∀ (g : Graph), WF g → ∀ s t : Nat, s < g.n → t < g.n → s ≠ t →
      edgeb g s t = false →
      friendship_degree_bfs (s, t) g = friendship_degree_dij (s, t) g := by
  intro g hwf s t hs ht hst hedge
  have hb := friendship_degree_bfs_spec hwf hs (fun h => hst h.symm)
  have hd := friendship_degree_dij_spec hwf (s := s) (t := t) hs
  by_cases hreach : ∃ k, t ∈ ball g s k
  · have hfb : firstBall g s t (Nat.find hreach) :=
      ⟨Nat.find_spec hreach, fun i hi => Nat.find_min hreach hi⟩
    have hsd : shortestDist g s t (Nat.find hreach) :=
      (shortestDist_iff_firstBall hwf).2 hfb
    rw [hb.1 _ hsd, hd.1 _ hsd]
  · have hnw : noWalk g s t := fun j hw => hreach ⟨j, isWalk_mem_ball hwf hw⟩
    rw [hb.2 hnw, hd.2 hnw]

/-- Witness for C4 on the path graph 0 - 1 - 2 at the pair (0, 2). -/
theorem bfs_dijkstra_same_degree_witness :
    friendship_degree_bfs (0, 2) ⟨3, [(0, 1), (1, 2)]⟩ =
      friendship_degree_dij (0, 2) ⟨3, [(0, 1), (1, 2)]⟩ :=
  bfs_dijkstra_same_degree ⟨3, [(0, 1), (1, 2)]⟩ (by unfold WF; decide) 0 2
    (by decide) (by decide) (by decide) (by decide)

/-- C9 counterexample: invoked directly with start = target (one-vertex
graph, pair (0,0)), both search variants return 0, not the unreachable
sentinel that the claim requires. -/
theorem degree_self_zero_counterexample :
    friendship_degree_bfs (0, 0) ⟨1, []⟩ = 0 ∧
    friendship_degree_dij (0, 0) ⟨1, []⟩ = 0 ∧
    ¬ (friendship_degree_bfs (0, 0) ⟨1, []⟩ = intMax) ∧
    ¬ (friendship_degree_dij (0, 0) ⟨1, []⟩ = intMax) := by
  decide

/-- C9 (amended): the degree-of-separation search invoked directly with
start = target returns 0 (the start node's own stored distance), never the
unreachable sentinel, in both variants. -/
theorem degree_self_returns_zero :
    ∀ (g : Graph) (a : Nat), friendship_degree_bfs (a, a) g = 0 ∧
      (a < g.n → friendship_degree_dij (a, a) g = 0) := by
  intro g a
  constructor
  · unfold friendship_degree_bfs
    rw [if_pos rfl]
  · intro ha
    have hspec := candMinAux_spec ([] : List Nat)
      (fun v => if v = a then some 0 else none) (List.range g.n)
    rcases hcm : candMinAux ([] : List Nat)
        (fun v => if v = a then some 0 else none) (List.range g.n) with _ | ⟨u, du⟩ <;>
      rw [hcm] at hspec
    · exfalso
      have h2 := hspec a (List.mem_range.2 ha) (by simp)
      simp at h2
    · have hu : u = a := by
        by_contra hne
        have h2 := hspec.2.2.1
        simp [hne] at h2
      have hdu : du = 0 := by
        have h2 := hspec.2.2.1
        rw [hu] at h2
        simp at h2
        omega
      rw [hu, hdu] at hcm
      have hloop : dijkstraLoop g a (g.n + 1) []
          (fun v => if v = a then some 0 else none) = some 0 := by
        have hred : dijkstraLoop g a (g.n + 1) []
            (fun v => if v = a then some 0 else none) =
            (match candMin g [] (fun v => if v = a then some 0 else none) with
             | none => none
             | some (u, du) =>
               if u = a then some du
               else dijkstraLoop g a g.n ([] ++ [u])
                 (relax g u du (fun v => if v = a then some 0 else none))) := rfl
        rw [hred, show candMin g [] (fun v => if v = a then some 0 else none) =
          some (a, 0) from hcm]
        simp
      simp only [friendship_degree_dij]
      rw [hloop]
      simp

/-- Witness for C9 (amended) on a one-vertex graph. -/
theorem degree_self_returns_zero_witness :
    friendship_degree_bfs (0, 0) ⟨1, []⟩ = 0 ∧
    friendship_degree_dij (0, 0) ⟨1, []⟩ = 0 :=
  ⟨(degree_self_returns_zero ⟨1, []⟩ 0).1,
   (degree_self_returns_zero ⟨1, []⟩ 0).2 (by decide)⟩

/-- C7 counterexample: called immediately after evaluate(1,3) — which
inserts the 1-3 edge into history — evaluate(1,4) returns degree 2 via the
path 1-3-4, not the degree 3 the claim states, in both variants. -/
theorem scenario_second_evaluate_counterexample :
    (processPayment_bfs (processPayment_bfs
        (build_paymo_network_bfs [(1, 2), (2, 3), (3, 4)] initBfs) 1 3).1 1 4).2 = 2 ∧
    ¬ ((processPayment_bfs (processPayment_bfs
        (build_paymo_network_bfs [(1, 2), (2, 3), (3, 4)] initBfs) 1 3).1 1 4).2 = 3) ∧
    (processPayment_dij (processPayment_dij
        (build_paymo_network_dij [(1, 2), (2, 3), (3, 4)] initDij) 1 3).1 1 4).2 = 2 ∧
    ¬ ((processPayment_dij (processPayment_dij
        (build_paymo_network_dij [(1, 2), (2, 3), (3, 4)] initDij) 1 3).1 1 4).2 = 3) := by
  decide

/-- C7 (amended): after bulk-loading (1,2), (2,3), (3,4): evaluate(1,3)
returns degree 2 with verdicts (unverified, trusted, trusted);
evaluate(1,4) evaluated against the bulk-loaded graph, before the 1-3 edge
of the previous call is inserted, returns degree 3 with verdicts
(unverified, unverified, trusted) — called immediately after evaluate(1,3)
it returns degree 2 instead; and evaluate(1,5) for a user 5 with no
payments returns the unreachable sentinel with all tiers unverified.
Both variants agree on all of it. -/
theorem scenario_bulk_evaluations :
    ((processPayment_bfs (build_paymo_network_bfs [(1, 2), (2, 3), (3, 4)] initBfs) 1 3).2
        = 2 ∧
      classify (processPayment_bfs
        (build_paymo_network_bfs [(1, 2), (2, 3), (3, 4)] initBfs) 1 3).2 =
        (false, true, true) ∧
      (processPayment_bfs (build_paymo_network_bfs [(1, 2), (2, 3), (3, 4)] initBfs) 1 4).2
        = 3 ∧
      classify (processPayment_bfs
        (build_paymo_network_bfs [(1, 2), (2, 3), (3, 4)] initBfs) 1 4).2 =
        (false, false, true) ∧
      (processPayment_bfs (processPayment_bfs
        (build_paymo_network_bfs [(1, 2), (2, 3), (3, 4)] initBfs) 1 3).1 1 4).2 = 2 ∧
      (processPayment_bfs (processPayment_bfs (processPayment_bfs
        (build_paymo_network_bfs [(1, 2), (2, 3), (3, 4)] initBfs) 1 3).1 1 4).1 1 5).2 =
        intMax ∧
      classify (processPayment_bfs (processPayment_bfs (processPayment_bfs
        (build_paymo_network_bfs [(1, 2), (2, 3), (3, 4)] initBfs) 1 3).1 1 4).1 1 5).2 =
        (false, false, false)) ∧
    ((processPayment_dij (build_paymo_network_dij [(1, 2), (2, 3), (3, 4)] initDij) 1 3).2
        = 2 ∧
      classify (processPayment_dij
        (build_paymo_network_dij [(1, 2), (2, 3), (3, 4)] initDij) 1 3).2 =
        (false, true, true) ∧
      (processPayment_dij (build_paymo_network_dij [(1, 2), (2, 3), (3, 4)] initDij) 1 4).2
        = 3 ∧
      classify (processPayment_dij
        (build_paymo_network_dij [(1, 2), (2, 3), (3, 4)] initDij) 1 4).2 =
        (false, false, true) ∧
      (processPayment_dij (processPayment_dij
        (build_paymo_network_dij [(1, 2), (2, 3), (3, 4)] initDij) 1 3).1 1 4).2 = 2 ∧
      (processPayment_dij (processPayment_dij (processPayment_dij
        (build_paymo_network_dij [(1, 2), (2, 3), (3, 4)] initDij) 1 3).1 1 4).1 1 5).2 =
        intMax ∧
      classify (processPayment_dij (processPayment_dij (processPayment_dij
        (build_paymo_network_dij [(1, 2), (2, 3), (3, 4)] initDij) 1 3).1 1 4).1 1 5).2 =
        (false, false, false)) := by
  decide

end Paymo
